import Mathlib

/-!
Verification of the frame-extractor pipeline
(src/frame_extractor_termux_windows.c and src/frame_extractor.c;
the queue, progress, saver and parsing code is identical in both).

The C code is shallowly embedded: every operation below is translated
from the corresponding C function.  Mutex-protected critical sections
(queue_push / queue_pop / queue_set_done / progress_update) execute
atomically in the C program, so any concurrent run corresponds to some
sequence of these atomic operations; we therefore reason about
sequences of operations applied to the shared state.  C `int` fields
are modelled as `Int` (no overflow occurs in the ranges of interest),
array contents as functions `Nat → _`, and the index arithmetic
`(h + 1) % MAX_QUEUE_SIZE` is kept literally.
-/

/-- MAX_QUEUE_SIZE from the source. -/
def MAX_QUEUE_SIZE : Nat := 32

/-- NUM_SAVER_THREADS from the source. -/
def NUM_SAVER_THREADS : Nat := 4

/-- One queue slot: the cloned AVFrame (abstracted to an integer handle,
since its pixel contents are irrelevant to queue behaviour) together
with the frame number stored beside it (`frames[i]` / `frame_numbers[i]`). -/
structure Entry where
  frame : Int
  frame_number : Int
deriving DecidableEq

/-- The synchronisation-relevant state of `FrameQueue`:
`frames`/`frame_numbers` (combined into `slots`), `head`, `tail`,
`count`, `done`.  The remaining fields of the C struct
(width, height, format, fast_mode, output_pattern, total_frames) are
configuration set once by `queue_init` and never touched by
push/pop/set_done; `frames_saved` is updated by the saver loop, not by
the queue operations, so none of them affect the claims about the
queue and they are carried separately where needed. -/
structure FrameQueue where
  slots : Nat → Entry
  head : Nat
  tail : Nat
  count : Nat
  done : Bool

/-- `queue_init` (after `memset(q, 0, ...)`): empty ring, nothing done. -/
def queue_init : FrameQueue :=
  { slots := fun _ => ⟨0, 0⟩, head := 0, tail := 0, count := 0, done := false }

/-- The critical section of `queue_push`, entered once
`count < MAX_QUEUE_SIZE` (the `while`/`cond_wait` loop blocks the
producer until then): store at `head`, advance `head` mod the
capacity, increment `count`. -/
def queue_push (q : FrameQueue) (e : Entry) : FrameQueue :=
  { q with
    slots := fun i => if i = q.head then e else q.slots i
    head := (q.head + 1) % MAX_QUEUE_SIZE
    count := q.count + 1 }

/-- The critical section of `queue_pop`, entered once
`count ≠ 0 ∨ done` (the `while`/`cond_wait` loop blocks a worker while
`count == 0 && !done`).  Returns `none` for the C return value 0
("no more") and `some entry` for return value 1, paired with the
resulting state. -/
def queue_pop (q : FrameQueue) : Option Entry × FrameQueue :=
  if q.count = 0 then
    (none, q)
  else
    (some (q.slots q.tail),
     { q with tail := (q.tail + 1) % MAX_QUEUE_SIZE, count := q.count - 1 })

/-- `queue_set_done`: set the `done` flag (and broadcast, which only
affects scheduling, not state). -/
def queue_set_done (q : FrameQueue) : FrameQueue :=
  { q with done := true }

/-- The three atomic queue operations. -/
inductive QueueOp where
  | push (e : Entry)
  | pop
  | setDone
deriving DecidableEq

/-- An operation's critical section can execute only when its guarding
`pthread_cond_wait` loop has exited: a push needs a free slot, a pop
needs an entry or the done flag, set_done is unconditional. -/
def opEnabled (q : FrameQueue) : QueueOp → Bool
  | .push _ => decide (q.count < MAX_QUEUE_SIZE)
  | .pop => decide (q.count ≠ 0) || q.done
  | .setDone => true

/-- State after one atomic operation. -/
def stepQ (q : FrameQueue) : QueueOp → FrameQueue
  | .push e => queue_push q e
  | .pop => (queue_pop q).2
  | .setDone => queue_set_done q

/-- State after a sequence of atomic operations. -/
def runQ (q : FrameQueue) : List QueueOp → FrameQueue
  | [] => q
  | op :: ops => runQ (stepQ q op) ops

/-- A sequence of operations is a valid run when each operation is
enabled at the point it executes (a blocked thread's critical section
does not run). -/
def validRun (q : FrameQueue) : List QueueOp → Bool
  | [] => true
  | op :: ops => opEnabled q op && validRun (stepQ q op) ops

/-- The entries returned (with return value 1) by the pop operations
of a run, in execution order. -/
def popResults (q : FrameQueue) : List QueueOp → List Entry
  | [] => []
  | .pop :: ops =>
      match queue_pop q with
      | (some e, q') => e :: popResults q' ops
      | (none, q') => popResults q' ops
  | op :: ops => popResults (stepQ q op) ops

/-- The entries submitted by the push operations of a run, in
execution order. -/
def pushesOf : List QueueOp → List Entry
  | [] => []
  | .push e :: ops => e :: pushesOf ops
  | _ :: ops => pushesOf ops

/-- Structural invariant of the ring buffer. -/
def QInv (q : FrameQueue) : Prop :=
  q.tail < MAX_QUEUE_SIZE ∧ q.count ≤ MAX_QUEUE_SIZE ∧
    q.head = (q.tail + q.count) % MAX_QUEUE_SIZE

/-- Abstraction: the logical FIFO content of the ring buffer, oldest
first. -/
def absList (q : FrameQueue) : List Entry :=
  (List.range q.count).map (fun i => q.slots ((q.tail + i) % MAX_QUEUE_SIZE))

theorem qinv_init : QInv queue_init := by
  refine ⟨?_, ?_, ?_⟩ <;> simp [queue_init, QInv, MAX_QUEUE_SIZE]

theorem absList_init : absList queue_init = [] := by
  simp [absList, queue_init]

theorem absList_length (q : FrameQueue) : (absList q).length = q.count := by
  simp [absList]

/-- Pushing onto a non-full ring appends to the logical content. -/
theorem absList_push (q : FrameQueue) (e : Entry) (hinv : QInv q)
    (hlt : q.count < MAX_QUEUE_SIZE) :
    absList (queue_push q e) = absList q ++ [e] := by
  obtain ⟨ht, hc, hh⟩ := hinv
  unfold absList queue_push
  simp only [List.range_succ, List.map_append, List.map_cons, List.map_nil]
  congr 1
  · apply List.map_congr_left
    intro i hi
    simp only [List.mem_range] at hi
    have hne : (q.tail + i) % MAX_QUEUE_SIZE ≠ q.head := by
      rw [hh]
      intro hmod
      have : i % MAX_QUEUE_SIZE = q.count % MAX_QUEUE_SIZE :=
        (Nat.ModEq.add_left_cancel' q.tail hmod)
      rw [Nat.mod_eq_of_lt (lt_trans hi hlt), Nat.mod_eq_of_lt hlt] at this
      omega
    simp [hne]
  · have : (q.tail + q.count) % MAX_QUEUE_SIZE = q.head := hh.symm
    simp [this]

/-- Push preserves the ring invariant. -/
theorem qinv_push (q : FrameQueue) (e : Entry) (hinv : QInv q)
    (hlt : q.count < MAX_QUEUE_SIZE) :
    QInv (queue_push q e) := by
  obtain ⟨ht, hc, hh⟩ := hinv
  refine ⟨ht, by simpa [queue_push] using hlt, ?_⟩
  simp only [queue_push, hh]
  rw [Nat.mod_add_mod, Nat.add_assoc]

theorem queue_pop_empty (q : FrameQueue) (h : q.count = 0) :
    queue_pop q = (none, q) := by
  simp [queue_pop, h]

/-- Popping from a non-empty ring returns the oldest entry and removes
it from the logical content, preserving the invariant. -/
theorem absList_pop (q : FrameQueue) (hinv : QInv q) (hne : q.count ≠ 0) :
    (queue_pop q).1 = some (q.slots q.tail) ∧
    absList q = q.slots q.tail :: absList (queue_pop q).2 ∧
    QInv (queue_pop q).2 := by
  obtain ⟨ht, hc, hh⟩ := hinv
  obtain ⟨c, hcnt⟩ : ∃ c, q.count = c + 1 :=
    ⟨q.count - 1, by omega⟩
  have hq : queue_pop q =
      (some (q.slots q.tail),
       { q with tail := (q.tail + 1) % MAX_QUEUE_SIZE, count := q.count - 1 }) := by
    simp [queue_pop, hne]
  refine ⟨by rw [hq], ?_, ?_⟩
  · rw [hq]
    unfold absList
    simp only [hcnt, List.range_succ_eq_map, List.map_cons, List.map_map,
      Nat.add_sub_cancel]
    congr 1
    · rw [Nat.add_zero, Nat.mod_eq_of_lt ht]
    · apply List.map_congr_left
      intro i _
      simp only [Function.comp]
      rw [Nat.mod_add_mod]
      congr 2
      omega
  · rw [hq]
    unfold QInv
    simp only
    refine ⟨Nat.mod_lt _ (by decide), by omega, ?_⟩
    rw [hh, Nat.mod_add_mod]
    congr 1
    omega

theorem absList_set_done (q : FrameQueue) :
    absList (queue_set_done q) = absList q := rfl

theorem popResults_pop (q : FrameQueue) (ops : List QueueOp) :
    popResults q (QueueOp.pop :: ops) =
      match queue_pop q with
      | (some e, q') => e :: popResults q' ops
      | (none, q') => popResults q' ops := rfl

/-- Every valid run preserves the ring invariant, and the entries it
pops, followed by what is still queued, are exactly what was queued at
the start followed by the entries it pushes — the FIFO simulation. -/
theorem runQ_spec (ops : List QueueOp) :
    ∀ q : FrameQueue, QInv q → validRun q ops = true →
      QInv (runQ q ops) ∧
      popResults q ops ++ absList (runQ q ops) = absList q ++ pushesOf ops := by
  induction ops with
  | nil => intro q hinv _; exact ⟨hinv, by simp [popResults, runQ, pushesOf]⟩
  | cons op ops ih =>
    intro q hinv hv
    rw [validRun, Bool.and_eq_true] at hv
    obtain ⟨hen, hv⟩ := hv
    cases op with
    | push e =>
      have hlt : q.count < MAX_QUEUE_SIZE := by
        simpa [opEnabled] using hen
      have := ih (queue_push q e) (qinv_push q e hinv hlt) hv
      refine ⟨this.1, ?_⟩
      have habs := absList_push q e hinv hlt
      simp only [popResults, runQ, stepQ, pushesOf]
      rw [this.2, habs, List.append_assoc, List.singleton_append]
    | pop =>
      by_cases hz : q.count = 0
      · have hq := queue_pop_empty q hz
        have hstep : stepQ q QueueOp.pop = q := by
          simp [stepQ, hq]
        rw [hstep] at hv
        have := ih q hinv hv
        refine ⟨by rw [runQ, hstep]; exact this.1, ?_⟩
        rw [popResults_pop, hq]
        simp only [runQ, hstep, pushesOf]
        exact this.2
      · obtain ⟨h1, h2, h3⟩ := absList_pop q hinv hz
        have := ih (queue_pop q).2 h3 (by simpa [stepQ] using hv)
        refine ⟨by simpa [runQ, stepQ] using this.1, ?_⟩
        rw [popResults_pop]
        have hq : queue_pop q = (some (q.slots q.tail), (queue_pop q).2) := by
          rw [← h1]
        rw [hq]
        simp only [runQ, stepQ, pushesOf]
        rw [List.cons_append, this.2, h2]
        simp [List.cons_append]
    | setDone =>
      have := ih (queue_set_done q) (by exact hinv) hv
      refine ⟨by simpa [runQ, stepQ] using this.1, ?_⟩
      simp only [popResults, runQ, stepQ, pushesOf]
      rw [this.2, absList_set_done]

/-- C1: for every valid run of queue operations starting from the
freshly initialised queue (so pushes only execute with at most the
capacity outstanding, as the blocking `queue_push` guarantees), the
sequence of (frame, frame_number) entries returned by successive
`queue_pop` calls is an initial segment of the sequence of entries
submitted by `queue_push`, in submission order: strict FIFO. -/
theorem queue_pop_fifo (ops : List QueueOp)
    (h : validRun queue_init ops = true) :
    ∃ rest, popResults queue_init ops ++ rest = pushesOf ops := by
  have hs := runQ_spec ops queue_init qinv_init h
  exact ⟨absList (runQ queue_init ops), by rw [hs.2, absList_init, List.nil_append]⟩

theorem queue_pop_fifo_witness :
    validRun queue_init
        [QueueOp.push ⟨1, 10⟩, QueueOp.push ⟨2, 20⟩, QueueOp.pop,
         QueueOp.push ⟨3, 30⟩, QueueOp.pop, QueueOp.pop, QueueOp.setDone,
         QueueOp.pop] = true ∧
      ∃ rest,
        popResults queue_init
            [QueueOp.push ⟨1, 10⟩, QueueOp.push ⟨2, 20⟩, QueueOp.pop,
             QueueOp.push ⟨3, 30⟩, QueueOp.pop, QueueOp.pop, QueueOp.setDone,
             QueueOp.pop] ++ rest =
          pushesOf
            [QueueOp.push ⟨1, 10⟩, QueueOp.push ⟨2, 20⟩, QueueOp.pop,
             QueueOp.push ⟨3, 30⟩, QueueOp.pop, QueueOp.pop, QueueOp.setDone,
             QueueOp.pop] :=
  ⟨by decide, queue_pop_fifo _ (by decide)⟩

/-- Splitting a run at any point. -/
theorem validRun_append (l1 l2 : List QueueOp) :
    ∀ q : FrameQueue,
      validRun q (l1 ++ l2) = (validRun q l1 && validRun (runQ q l1) l2) := by
  induction l1 with
  | nil => intro q; simp [validRun, runQ]
  | cons op l1 ih =>
    intro q
    have e1 : validRun q (op :: (l1 ++ l2)) =
        (opEnabled q op && validRun (stepQ q op) (l1 ++ l2)) := rfl
    have e2 : validRun q (op :: l1) =
        (opEnabled q op && validRun (stepQ q op) l1) := rfl
    have e3 : runQ q (op :: l1) = runQ (stepQ q op) l1 := rfl
    rw [List.cons_append, e1, e2, e3, ih, Bool.and_assoc]

/-- C2: at every point of every valid run from the freshly initialised
queue — i.e. after any initial segment of the run — the occupancy
satisfies 0 ≤ count ≤ MAX_QUEUE_SIZE = 32: since `queue_push`'s
critical section only runs while count < MAX_QUEUE_SIZE (the push
blocks on the `not_full` condition otherwise), the queue never holds
more than the capacity, whatever the interleaving. -/
theorem queue_count_bounded (l1 l2 : List QueueOp)
    (h : validRun queue_init (l1 ++ l2) = true) :
    0 ≤ (runQ queue_init l1).count ∧
      (runQ queue_init l1).count ≤ MAX_QUEUE_SIZE := by
  rw [validRun_append, Bool.and_eq_true] at h
  have hs := runQ_spec l1 queue_init qinv_init h.1
  exact ⟨Nat.zero_le _, hs.1.2.1⟩

theorem queue_count_bounded_witness :
    validRun queue_init
        ([QueueOp.push ⟨1, 10⟩, QueueOp.push ⟨2, 20⟩] ++
          [QueueOp.pop, QueueOp.pop]) = true ∧
      (0 ≤ (runQ queue_init [QueueOp.push ⟨1, 10⟩, QueueOp.push ⟨2, 20⟩]).count ∧
        (runQ queue_init [QueueOp.push ⟨1, 10⟩, QueueOp.push ⟨2, 20⟩]).count ≤
          MAX_QUEUE_SIZE) :=
  ⟨by decide,
   queue_count_bounded [QueueOp.push ⟨1, 10⟩, QueueOp.push ⟨2, 20⟩]
     [QueueOp.pop, QueueOp.pop] (by decide)⟩

/-- True when a sequence of operations contains no push (pushing after
`queue_set_done` is a caller contract violation, so the operations
that can still occur after the producer is done are pops and repeated
set_done calls). -/
def noPush : List QueueOp → Bool
  | [] => true
  | .push _ :: _ => false
  | _ :: ops => noPush ops

theorem done_empty_run (ops : List QueueOp) :
    ∀ q : FrameQueue, q.done = true → q.count = 0 → noPush ops = true →
      popResults q ops = [] ∧ (runQ q ops).done = true ∧
        (runQ q ops).count = 0 := by
  induction ops with
  | nil => intro q hd hc _; exact ⟨rfl, hd, hc⟩
  | cons op ops ih =>
    intro q hd hc hnp
    cases op with
    | push e => exact absurd hnp (by simp [noPush])
    | pop =>
      have hq := queue_pop_empty q hc
      have hstep : stepQ q QueueOp.pop = q := by simp [stepQ, hq]
      have := ih q hd hc (by simpa [noPush] using hnp)
      exact ⟨by rw [popResults_pop, hq]; exact this.1,
             by rw [runQ, hstep]; exact this.2.1,
             by rw [runQ, hstep]; exact this.2.2⟩
    | setDone =>
      have := ih (queue_set_done q) rfl hc (by simpa [noPush] using hnp)
      exact ⟨this.1, this.2.1, this.2.2⟩

/-- C3: once `queue_set_done` has run and the queue is empty
(done flag set, count = 0), a `queue_pop` no longer blocks (its wait
condition is enabled), returns 0 ("no more") and leaves the state
untouched; and along any further operations that contain no push,
every future `queue_pop` keeps returning 0 while the state stays done
and empty. -/
theorem queue_pop_after_done (q : FrameQueue) (ops : List QueueOp)
    (h1 : q.done = true) (h2 : q.count = 0) (h3 : noPush ops = true) :
    opEnabled q QueueOp.pop = true ∧ queue_pop q = (none, q) ∧
      popResults q ops = [] ∧ (runQ q ops).done = true ∧
      (runQ q ops).count = 0 := by
  refine ⟨by simp [opEnabled, h1], queue_pop_empty q h2, ?_⟩
  exact done_empty_run ops q h1 h2 h3

theorem queue_pop_after_done_witness :
    (queue_set_done queue_init).done = true ∧
      (queue_set_done queue_init).count = 0 ∧
      noPush [QueueOp.pop, QueueOp.setDone, QueueOp.pop] = true ∧
      (opEnabled (queue_set_done queue_init) QueueOp.pop = true ∧
        queue_pop (queue_set_done queue_init) =
          (none, queue_set_done queue_init) ∧
        popResults (queue_set_done queue_init)
            [QueueOp.pop, QueueOp.setDone, QueueOp.pop] = [] ∧
        (runQ (queue_set_done queue_init)
            [QueueOp.pop, QueueOp.setDone, QueueOp.pop]).done = true ∧
        (runQ (queue_set_done queue_init)
            [QueueOp.pop, QueueOp.setDone, QueueOp.pop]).count = 0) :=
  ⟨rfl, rfl, rfl, queue_pop_after_done _ _ rfl rfl rfl⟩

/-! ## Progress tracker -/

/-- The counter state of `ProgressTracker`: `total_frames`,
`frames_processed`, `audio_packets`.  The timing fields
(`start_time`, `width`, `last_display_time`) and the mutex only govern
when the bar is redrawn, not the counter values, and are modelled
separately for the rendering claims. -/
structure Progress where
  total_frames : Int
  frames_processed : Int
  audio_packets : Int
deriving DecidableEq

/-- `progress_init`: counters start at zero. -/
def progress_init (total_frames : Int) : Progress :=
  { total_frames := total_frames, frames_processed := 0, audio_packets := 0 }

/-- The counter effect of `progress_update`'s critical section:
`frames_processed += frames_inc; audio_packets += audio_inc;` then
`frames_processed` is clamped down to `total_frames` when it exceeds
it. -/
def progress_update (pt : Progress) (frames_inc audio_inc : Int) : Progress :=
  let p := pt.frames_processed + frames_inc
  { pt with
    frames_processed := if p > pt.total_frames then pt.total_frames else p
    audio_packets := pt.audio_packets + audio_inc }

/-- A sequence of atomic `progress_update` calls (each call holds
`progress_mutex`, so any interleaving across threads is a sequence of
these increments in some order). -/
def progress_run (pt : Progress) : List (Int × Int) → Progress
  | [] => pt
  | (f, a) :: rest => progress_run (progress_update pt f a) rest

theorem progress_update_processed (pt : Progress) (f a : Int) :
    (progress_update pt f a).frames_processed =
      min (pt.frames_processed + f) pt.total_frames := by
  unfold progress_update
  simp only
  split <;> omega

/-- Identical non-negative increments accumulate to the clamped sum. -/
theorem progress_run_const (k total : Int) (hk : 0 ≤ k) :
    ∀ (l : List (Int × Int)) (p aud : Int), (∀ x ∈ l, x = (k, 0)) →
      0 ≤ p → p ≤ total →
      progress_run ⟨total, p, aud⟩ l =
        ⟨total, min (p + l.length * k) total, aud⟩ := by
  intro l
  induction l with
  | nil =>
    intro p aud _ h0 hp
    simp only [progress_run, List.length_nil, Nat.cast_zero, zero_mul, add_zero]
    congr 1
    omega
  | cons x l ih =>
    intro p aud hmem h0 hp
    have hx : x = (k, 0) := hmem x (List.mem_cons_self x l)
    subst hx
    have hstep : progress_run ⟨total, p, aud⟩ ((k, 0) :: l) =
        progress_run (progress_update ⟨total, p, aud⟩ k 0) l := rfl
    have hupd : progress_update ⟨total, p, aud⟩ k 0 =
        ⟨total, if p + k > total then total else p + k, aud + 0⟩ := rfl
    rw [hstep, hupd,
      ih (if p + k > total then total else p + k) (aud + 0)
        (fun y hy => hmem y (List.mem_cons_of_mem _ hy))
        (by split <;> omega) (by split <;> omega)]
    have hc : (0 : Int) ≤ (l.length : Int) * k :=
      mul_nonneg (by positivity) hk
    have hlen : ((l.length + 1 : Nat) : Int) * k = (l.length : Int) * k + k := by
      push_cast
      ring
    congr 1
    · simp only [List.length_cons, hlen]
      generalize (l.length : Int) * k = c at hc ⊢
      split <;> omega
    · omega

/-- C5 counterexample: a single thread making a single
`progress_update(+2)` call against `total_frames = 1` (a non-negative
increment, T = M = 1, k = 2) leaves `frames_processed = 1`, not
T×M×k = 2: the clamp in `progress_update` caps the counter at
`total_frames`, so the sum is not exact once it passes the total. -/
theorem progress_sum_not_exact :
    ¬ (progress_run (progress_init 1) [((2 : Int), (0 : Int))]).frames_processed
        = 2 := by
  decide

/-- C5 (amended): for any interleaving of progress_update calls from
T threads, M calls each with increment +k (k ≥ 0, against a
non-negative total), the resulting frames_processed equals
min (T×M×k) total_frames — exactly T×M×k whenever that sum does not
exceed total_frames — and frames_processed never exceeds total_frames
at any point (any point of the run is itself the end of a shorter
interleaving l1). -/
theorem progress_sum_clamped (T M : Nat) (k total : Int)
    (l l1 l2 : List (Int × Int))
    (hk : 0 ≤ k) (ht : 0 ≤ total)
    (hl : ∀ x ∈ l, x = (k, 0)) (hlen : l.length = T * M)
    (hsplit : l = l1 ++ l2) :
    (progress_run (progress_init total) l).frames_processed
        = min ((T * M : Nat) * k) total ∧
      (progress_run (progress_init total) l1).frames_processed ≤ total := by
  have hrun : ∀ l' : List (Int × Int), (∀ x ∈ l', x = (k, 0)) →
      progress_run (progress_init total) l' =
        ⟨total, min ((l'.length : Int) * k) total, 0⟩ := by
    intro l' hl'
    have := progress_run_const k total hk l' 0 0 hl' le_rfl ht
    simpa [progress_init] using this
  constructor
  · rw [hrun l hl, hlen]
  · rw [hrun l1 (fun x hx => hl x (by rw [hsplit]; exact List.mem_append_left _ hx))]
    simp only
    exact min_le_right _ _

theorem progress_sum_clamped_witness :
    (progress_run (progress_init 100)
        [((5 : Int), (0 : Int)), (5, 0), (5, 0), (5, 0), (5, 0), (5, 0)]).frames_processed
        = min ((2 * 3 : Nat) * (5 : Int)) 100 ∧
      (progress_run (progress_init 100)
        [((5 : Int), (0 : Int)), (5, 0)]).frames_processed ≤ 100 :=
  progress_sum_clamped 2 3 5 100
    [(5, 0), (5, 0), (5, 0), (5, 0), (5, 0), (5, 0)]
    [(5, 0), (5, 0)] [(5, 0), (5, 0), (5, 0), (5, 0)]
    (by decide) (by decide) (by decide) (by decide) (by decide)

/-! ## Progress rendering (the arithmetic of `progress_update`'s
display section, lines computing `percentage`, `frames_per_sec` and
`remaining_time`).  The C code computes with float/double; the
real-number arithmetic is modelled exactly over `ℚ`, keeping every
guard of the source (the claims at issue are about which guard is
applied, not about rounding). -/

/-- `percentage`: `(total_frames > 0) ? processed/total : 0`, then
clamped to 1. -/
def renderPercentage (processed total : ℚ) : ℚ :=
  let pct := if total > 0 then processed / total else 0
  if pct > 1 then 1 else pct

/-- `frames_per_sec`: `(elapsed > 0.001) ? processed/elapsed : 0`. -/
def renderRate (processed elapsed : ℚ) : ℚ :=
  if elapsed > 1 / 1000 then processed / elapsed else 0

/-- `remaining_time`: computed as `(total - processed) / rate` only
when `percentage > 0.01 && frames_per_sec > 0`; `none` models the
branch where no ETA is computed (`remaining_time` stays 0 and is not
shown). -/
def renderEta (processed total elapsed : ℚ) : Option ℚ :=
  if renderPercentage processed total > 1 / 100 ∧
      renderRate processed elapsed > 0 then
    some ((total - processed) / renderRate processed elapsed)
  else
    none

/-- C7 counterexample: at processed = 1, total = 200, elapsed = 1 the
rate is 1 > 0, yet no ETA is computed (`renderEta` is `none`), because
the code additionally requires `percentage > 0.01` and here the
percentage is 1/200 = 0.005.  So the ETA is not computed "exactly when
rate > 0" as the claim states. -/
theorem render_eta_not_rate_only :
    renderRate 1 1 > 0 ∧ renderEta 1 200 1 = none := by
  constructor
  · norm_num [renderRate]
  · norm_num [renderEta, renderPercentage, renderRate]

/-- C7 (amended): whenever the tracker renders with a positive total
and elapsed time above the 1 ms guard, the displayed quantities
satisfy percentage = min(processed/total, 1) and
rate = processed/elapsed, and an ETA equal to
(total − processed)/rate is computed exactly when percentage > 0.01
and rate > 0 (the source guards the ETA on both conditions, not on
the rate alone). -/
theorem render_quantities (processed total elapsed : ℚ)
    (htot : 0 < total) (hel : 1 / 1000 < elapsed) :
    renderPercentage processed total = min (processed / total) 1 ∧
      renderRate processed elapsed = processed / elapsed ∧
      (renderEta processed total elapsed
          = some ((total - processed) / renderRate processed elapsed) ↔
        (renderPercentage processed total > 1 / 100 ∧
          renderRate processed elapsed > 0)) := by
  refine ⟨?_, ?_, ?_⟩
  · unfold renderPercentage
    simp only [if_pos htot]
    split_ifs with h
    · exact (min_eq_right h.le).symm
    · exact (min_eq_left (not_lt.mp h)).symm
  · unfold renderRate
    rw [if_pos hel]
  · unfold renderEta
    split_ifs with h
    · exact iff_of_true rfl h
    · exact iff_of_false (by simp) h

theorem render_quantities_witness :
    renderPercentage 50 100 = min ((50 : ℚ) / 100) 1 ∧
      renderRate 50 1 = (50 : ℚ) / 1 ∧
      (renderEta 50 100 1 = some (((100 : ℚ) - 50) / renderRate 50 1) ↔
        (renderPercentage 50 100 > 1 / 100 ∧ renderRate 50 1 > 0)) :=
  render_quantities 50 100 1 (by norm_num) (by norm_num)

/-! ## Target-frame selection (main, explicit-list branch) -/

/-- The explicit-list branch of the `frames_to_extract` selection in
`main`: when `config.frame_count > 0`, each listed frame is kept, in
list order, exactly when `start_frame <= f && f <= end_frame`. -/
def select_explicit : List Int → Int → Int → List Int
  | [], _, _ => []
  | f :: rest, start_frame, end_frame =>
    if start_frame ≤ f ∧ f ≤ end_frame then
      f :: select_explicit rest start_frame end_frame
    else
      select_explicit rest start_frame end_frame

/-- C6: when both an explicit frame list and a range are supplied, the
target frame set built by `main` is exactly the intersection — it is
the filter of the explicit list by the range bounds, so a frame is
selected iff it is listed and lies within [start_frame, end_frame],
and the selection is a sublist of the explicit list (list order
preserved, no other frames). -/
theorem select_explicit_intersection (frames : List Int) (s e : Int) :
    select_explicit frames s e =
        frames.filter (fun f => decide (s ≤ f) && decide (f ≤ e)) ∧
      (∀ f, f ∈ select_explicit frames s e ↔ f ∈ frames ∧ s ≤ f ∧ f ≤ e) ∧
      List.Sublist (select_explicit frames s e) frames := by
  have hfil : select_explicit frames s e =
      frames.filter (fun f => decide (s ≤ f) && decide (f ≤ e)) := by
    induction frames with
    | nil => rfl
    | cons f rest ih =>
      simp only [select_explicit]
      by_cases h : s ≤ f ∧ f ≤ e
      · rw [if_pos h, ih, List.filter_cons_of_pos (by simpa using h)]
      · rw [if_neg h, ih, List.filter_cons_of_neg (by simpa using h)]
  refine ⟨hfil, ?_, ?_⟩
  · intro f
    rw [hfil, List.mem_filter]
    simp
  · rw [hfil]
    exact List.filter_sublist _

/-! ## Producer loop (main, decode/select/enqueue) -/

/-- `frame_in_list` from the source: linear scan for membership. -/
def frame_in_list (frame : Int) : List Int → Bool
  | [] => false
  | x :: rest => if x = frame then true else frame_in_list frame rest

/-- The producer's per-frame enqueue test (main, decode loop):
`current_frame >= start_frame && current_frame <= end_frame &&
(config.frame_count == 0 || frame_in_list(current_frame,
frames_to_extract, extract_count))`. -/
def producer_selects (start_frame end_frame : Int) (frame_count : Nat)
    (targets : List Int) (cur : Int) : Bool :=
  decide (start_frame ≤ cur) && decide (cur ≤ end_frame) &&
    (decide (frame_count = 0) || frame_in_list cur targets)

/-- The producer's decode loop over the remaining source frames:
`cur` is `current_frame`, `queued` is `frames_queued`; the loop exits
when `frames_queued >= extract_count` (checked both before decoding
the next frame and right after each enqueue, after `current_frame++`)
or when the source is exhausted.  Returns the enqueued frame numbers
in order and the final value of `current_frame` (= the number of
source frames decoded). -/
def producerGo (sel : Int → Bool) (extract_count : Nat) :
    Nat → Int → Nat → List Int × Int
  | 0, cur, _ => ([], cur)
  | n + 1, cur, queued =>
    if extract_count ≤ queued then ([], cur)
    else if sel cur then
      let r := producerGo sel extract_count n (cur + 1) (queued + 1)
      (cur :: r.1, r.2)
    else
      producerGo sel extract_count n (cur + 1) queued

/-- The whole producer phase over a source of `source_frames` frames:
`current_frame` and `frames_queued` start at 0. -/
def producer_run (sel : Int → Bool) (extract_count source_frames : Nat) :
    List Int × Int :=
  producerGo sel extract_count source_frames 0 0

/-- After the decode loop, `main` calls `queue_set_done` once: the
producer's full sequence of queue operations. -/
def producer_ops (pushed : List Int) : List QueueOp :=
  pushed.map (fun fn => QueueOp.push ⟨0, fn⟩) ++ [QueueOp.setDone]

def countSetDone : List QueueOp → Nat
  | [] => 0
  | .setDone :: ops => countSetDone ops + 1
  | _ :: ops => countSetDone ops

theorem countSetDone_producer_ops (pushed : List Int) :
    countSetDone (producer_ops pushed) = 1 := by
  unfold producer_ops
  induction pushed with
  | nil => rfl
  | cons x rest ih => simpa [countSetDone] using ih

theorem producerGo_zero (sel : Int → Bool) (ec : Nat) (cur : Int) (queued : Nat) :
    producerGo sel ec 0 cur queued = ([], cur) := rfl

theorem producerGo_succ (sel : Int → Bool) (ec n : Nat) (cur : Int) (queued : Nat) :
    producerGo sel ec (n + 1) cur queued =
      if ec ≤ queued then ([], cur)
      else if sel cur then
        (cur :: (producerGo sel ec n (cur + 1) (queued + 1)).1,
          (producerGo sel ec n (cur + 1) (queued + 1)).2)
      else
        producerGo sel ec n (cur + 1) queued := rfl

theorem producerGo_spec (sel : Int → Bool) (ec : Nat) :
    ∀ (n : Nat) (cur : Int) (queued : Nat), queued ≤ ec →
      (producerGo sel ec n cur queued).1.length + queued ≤ ec ∧
      ((producerGo sel ec n cur queued).1.length + queued = ec ∨
        (producerGo sel ec n cur queued).2 = cur + n) ∧
      (∀ x ∈ (producerGo sel ec n cur queued).1, sel x = true ∧ cur ≤ x) ∧
      List.Chain' (· < ·) (producerGo sel ec n cur queued).1 := by
  intro n
  induction n with
  | zero =>
    intro cur queued hq
    refine ⟨by simpa [producerGo] using hq, Or.inr (by simp [producerGo]), ?_, ?_⟩
    · intro x hx
      simp [producerGo] at hx
    · simp [producerGo]
  | succ n ih =>
    intro cur queued hq
    by_cases hfull : ec ≤ queued
    · rw [show producerGo sel ec (n + 1) cur queued = ([], cur) from by
        rw [producerGo_succ, if_pos hfull]]
      exact ⟨by simpa using hq, Or.inl (by simp; omega), by simp, by simp⟩
    · by_cases hsel : sel cur = true
      · have heq : producerGo sel ec (n + 1) cur queued =
            (cur :: (producerGo sel ec n (cur + 1) (queued + 1)).1,
              (producerGo sel ec n (cur + 1) (queued + 1)).2) := by
          rw [producerGo_succ, if_neg hfull, if_pos hsel]
        obtain ⟨ih1, ih2, ih3, ih4⟩ :=
          ih (cur + 1) (queued + 1) (by omega)
        rw [heq]
        refine ⟨by simp; omega, ?_, ?_, ?_⟩
        · rcases ih2 with h | h
          · exact Or.inl (by simp; omega)
          · refine Or.inr ?_
            simp only
            rw [h]
            push_cast
            ring
        · intro x hx
          rcases List.mem_cons.mp hx with rfl | hx
          · exact ⟨hsel, le_rfl⟩
          · exact ⟨(ih3 x hx).1, by have := (ih3 x hx).2; omega⟩
        · refine List.chain'_cons'.mpr ⟨?_, ih4⟩
          intro y hy
          have := (ih3 y (List.mem_of_mem_head? hy)).2
          omega
      · have heq : producerGo sel ec (n + 1) cur queued =
            producerGo sel ec n (cur + 1) queued := by
          rw [producerGo_succ, if_neg hfull, if_neg (by simpa using hsel)]
        obtain ⟨ih1, ih2, ih3, ih4⟩ := ih (cur + 1) queued hq
        rw [heq]
        refine ⟨ih1, ?_, ?_, ih4⟩
        · rcases ih2 with h | h
          · exact Or.inl h
          · refine Or.inr ?_
            rw [h]
            push_cast
            ring
        · intro x hx
          exact ⟨(ih3 x hx).1, by have := (ih3 x hx).2; omega⟩

/-- C4: the producer enqueues at most `extract_count` frames (the size
of the target set) and every run ends either because the number of
enqueued frames reached `extract_count` or because the source was
exhausted (final `current_frame` = number of source frames); every
enqueued frame number satisfies the selection test, frame numbers are
enqueued in strictly increasing decode order, and the producer's
operation sequence calls `queue_set_done` exactly once, after the
pushes.  Concretely, for target set {10,20,30} over a 100-frame source
(explicit list mode, range 0..99) exactly the 3 frames 10, 20, 30 are
enqueued, and decoding stops at `current_frame` = 31 — no frame beyond
the last match is decoded or enqueued. -/
theorem producer_stops_at_target (sel : Int → Bool) (ec N : Nat) :
    (producer_run sel ec N).1.length ≤ ec ∧
      ((producer_run sel ec N).1.length = ec ∨
        (producer_run sel ec N).2 = (N : Int)) ∧
      (∀ x ∈ (producer_run sel ec N).1, sel x = true) ∧
      List.Chain' (· < ·) (producer_run sel ec N).1 ∧
      countSetDone (producer_ops (producer_run sel ec N).1) = 1 ∧
      producer_run (producer_selects 0 99 3 [10, 20, 30]) 3 100 =
        ([10, 20, 30], 31) := by
  obtain ⟨h1, h2, h3, h4⟩ :=
    producerGo_spec sel ec N 0 0 (Nat.zero_le _)
  refine ⟨?_, ?_, ?_, h4, countSetDone_producer_ops _, by decide⟩
  · simpa [producer_run] using h1
  · rcases h2 with h | h
    · exact Or.inl (by simpa [producer_run] using h)
    · exact Or.inr (by simpa [producer_run] using h)
  · intro x hx
    exact (h3 x hx).1

/-! ## Main: empty-selection check and pipeline start -/

/-- What `main` does after building `frames_to_extract` (the code from
the `extract_count == 0` check up to the worker spawn loop): the
possible outcomes of that straight-line section. -/
inductive MainOutcome where
  | exitCode (code : Int)
  | pipelineStarted (saver_threads : Nat)
deriving DecidableEq

/-- The section of `main` between the selection and the decode loop:
`if (extract_count == 0) return 1;` comes first; then the codec is
opened (`return 1` on failure); only then are queue, tracker and the
NUM_SAVER_THREADS saver threads created and the decode pipeline
started.  `codec_open_ok` abstracts the external
`avcodec_open2(...) >= 0` result. -/
def main_after_selection (extract_count : Nat) (codec_open_ok : Bool) :
    MainOutcome :=
  if extract_count = 0 then
    MainOutcome.exitCode 1
  else if !codec_open_ok then
    MainOutcome.exitCode 1
  else
    MainOutcome.pipelineStarted NUM_SAVER_THREADS

/-- C8: whenever the computed target frame set is empty
(`extract_count == 0`), `main` exits with code 1 — whatever the codec
would have done — and the outcome is not a started pipeline: no saver
(worker) thread is created and the decode loop is never reached. -/
theorem empty_selection_exits (extract_count : Nat) (codec_open_ok : Bool)
    (h : extract_count = 0) :
    main_after_selection extract_count codec_open_ok = MainOutcome.exitCode 1 ∧
      main_after_selection extract_count codec_open_ok ≠
        MainOutcome.pipelineStarted NUM_SAVER_THREADS := by
  subst h
  cases codec_open_ok <;> exact ⟨rfl, by decide⟩

theorem empty_selection_exits_witness :
    main_after_selection 0 true = MainOutcome.exitCode 1 ∧
      main_after_selection 0 true ≠
        MainOutcome.pipelineStarted NUM_SAVER_THREADS :=
  empty_selection_exits 0 true rfl

/-! ## Saver thread: output filename -/

/-- `".yuv"` as characters. -/
def yuv_ext : List Char := ['.', 'y', 'u', 'v']

/-- `".png"` as characters. -/
def png_ext : List Char := ['.', 'p', 'n', 'g']

/-- The character-by-character comparison at one position that
`strstr` performs: true when `needle` matches at the start of `hay`. -/
def strncmpEq : List Char → List Char → Bool
  | [], _ => true
  | _ :: _, [] => false
  | a :: as, b :: bs => a == b && strncmpEq as bs

/-- `strstr(hay, needle) != NULL`: the needle matches at some
position of the haystack. -/
def strstrB (needle : List Char) : List Char → Bool
  | [] => strncmpEq needle []
  | c :: rest => strncmpEq needle (c :: rest) || strstrB needle rest

/-- The filename logic of `frame_saver_thread`: `snprintf(filename,
512, pattern, frame_number)` substitutes the frame number into the
output pattern (the substitution itself is the external templating
collaborator; `sub` is its untruncated result) and keeps at most 511
characters plus the terminator; then, in fast mode, if `strstr` does
not find ".yuv", `snprintf(with_ext, 512, "%s.yuv", filename)`
appends the extension — again keeping at most 511 characters, so the
appended extension is cut off when `filename` is longer than 507
characters — and the result is copied back; the PNG branch does the
same with ".png". -/
def frame_saver_filename (fast_mode : Bool) (sub : List Char) : List Char :=
  if fast_mode then
    if strstrB yuv_ext (sub.take 511) then sub.take 511
    else (sub.take 511 ++ yuv_ext).take 511
  else
    if strstrB png_ext (sub.take 511) then sub.take 511
    else (sub.take 511 ++ png_ext).take 511

theorem strncmpEq_refl : ∀ l : List Char, strncmpEq l l = true := by
  intro l
  induction l with
  | nil => rfl
  | cons c rest ih => simp [strncmpEq, ih]

theorem strstrB_append_self : ∀ xs pat : List Char,
    strstrB pat (xs ++ pat) = true := by
  intro xs
  induction xs with
  | nil =>
    intro pat
    cases pat with
    | nil => rfl
    | cons c rest => simp [strstrB, strncmpEq_refl]
  | cons x xs ih =>
    intro pat
    simp [strstrB, ih pat]

set_option maxRecDepth 10000 in
/-- C9 counterexample: a 508-character substituted name that does not
contain ".yuv", in fast mode.  The appending `snprintf` keeps only 511
characters, so the appended extension is cut to ".yu" and the path the
worker writes does not contain ".yuv" — the claim's "every path the
worker writes contains the extension matching the active mode" fails
at this input (the write still happens: `save_yuv_frame` is called
with the truncated name). -/
theorem frame_saver_filename_truncated :
    strstrB yuv_ext (frame_saver_filename true (List.replicate 508 'a')) =
      false := by
  decide

/-- C9 (amended): for every dequeued frame, the worker computes the
output filename by substituting the frame number into the output
pattern and, if the resulting name does not contain ".yuv" (fast
mode) or ".png" (compressed mode), appends that extension before
writing; the append goes through a 512-byte `snprintf`, so whenever
the substituted name is at most 507 characters long the appended
extension survives and the path the worker writes contains the
extension matching the active mode (for 508-511 character names the
extension is truncated away). -/
theorem frame_saver_filename_has_ext (fast_mode : Bool) (sub : List Char)
    (h : sub.length ≤ 507) :
    strstrB (if fast_mode then yuv_ext else png_ext)
        (frame_saver_filename fast_mode sub) = true := by
  have htake : sub.take 511 = sub := List.take_of_length_le (by omega)
  cases fast_mode with
  | true =>
    simp only [frame_saver_filename, if_pos trivial, htake]
    by_cases hx : strstrB yuv_ext sub = true
    · simp [hx]
    · simp only [Bool.not_eq_true] at hx
      have hfit : (sub ++ yuv_ext).take 511 = sub ++ yuv_ext :=
        List.take_of_length_le (by simp [yuv_ext]; omega)
      simp [hx, hfit, strstrB_append_self]
  | false =>
    simp only [frame_saver_filename, htake]
    by_cases hx : strstrB png_ext sub = true
    · simp [hx]
    · simp only [Bool.not_eq_true] at hx
      have hfit : (sub ++ png_ext).take 511 = sub ++ png_ext :=
        List.take_of_length_le (by simp [png_ext]; omega)
      simp [hx, hfit, strstrB_append_self]

theorem frame_saver_filename_has_ext_witness :
    (['f', 'r', 'a', 'm', 'e', '_', '7'] : List Char).length ≤ 507 ∧
      strstrB (if true then yuv_ext else png_ext)
          (frame_saver_filename true ['f', 'r', 'a', 'm', 'e', '_', '7']) =
        true :=
  ⟨by decide,
   frame_saver_filename_has_ext true ['f', 'r', 'a', 'm', 'e', '_', '7']
     (by decide)⟩

/-! ## parse_frames_string -/

/-- `strtok(s, ",")` iterated to exhaustion: the maximal non-empty
runs between commas, in order (strtok skips leading, repeated and
trailing delimiters).  `cur` holds the characters of the current run
in reverse. -/
def strtokAux (cur : List Char) : List Char → List (List Char)
  | [] => if cur = [] then [] else [cur.reverse]
  | c :: rest =>
    if c = ',' then
      if cur = [] then strtokAux [] rest
      else cur.reverse :: strtokAux [] rest
    else
      strtokAux (c :: cur) rest

/-- The comma tokens of a string, as `strtok` yields them. -/
def strtok_commas (s : List Char) : List (List Char) := strtokAux [] s

/-- Digit accumulation of `atoi`. -/
def digitsVal (acc : Int) : List Char → Int
  | [] => acc
  | c :: rest =>
    if c.isDigit then digitsVal (acc * 10 + ((c.toNat : Int) - 48)) rest
    else acc

/-- `atoi`: skip leading whitespace, optional sign, then decimal
digits up to the first non-digit (0 when there are none). -/
def atoi (s : List Char) : Int :=
  match s.dropWhile Char.isWhitespace with
  | '-' :: rest => -(digitsVal 0 rest)
  | '+' :: rest => digitsVal 0 rest
  | s1 => digitsVal 0 s1

/-- The `while (token != NULL && *count < 1024)` loop of
`parse_frames_string`: converts each token with `atoi`, storing it at
position `*count` of the output array (modelled by position in the
returned list) and stops writing once `*count` reaches 1024. -/
def parse_loop : List (List Char) → Nat → List Int
  | [], _ => []
  | t :: rest, count =>
    if count < 1024 then atoi t :: parse_loop rest (count + 1)
    else []

/-- `parse_frames_string(str, frames, count)`: the function first
executes `char temp[1024]; strcpy(temp, str);`.  `temp` holds at most
1023 characters plus the terminator, so for any longer input the copy
overflows the buffer — undefined behavior, modelled as `none`.  For
inputs that fit, `temp` holds the whole string, `strtok` tokenizes it
and the loop converts tokens while `*count < 1024`: the result is the
frames written, the final `*count`, and the return value
`*count > 0`. -/
def parse_frames_string (s : List Char) : Option (List Int × Nat × Bool) :=
  if s.length < 1024 then
    some (parse_loop (strtok_commas s) 0,
          (parse_loop (strtok_commas s) 0).length,
          decide (0 < (parse_loop (strtok_commas s) 0).length))
  else
    none

theorem parse_loop_take : ∀ (toks : List (List Char)) (count : Nat),
    parse_loop toks count = (toks.map atoi).take (1024 - count) := by
  intro toks
  induction toks with
  | nil => intro count; simp [parse_loop]
  | cons t rest ih =>
    intro count
    by_cases h : count < 1024
    · rw [show parse_loop (t :: rest) count =
          atoi t :: parse_loop rest (count + 1) from by
            rw [parse_loop, if_pos h]]
      rw [ih (count + 1)]
      have : 1024 - count = (1024 - (count + 1)) + 1 := by omega
      rw [this, List.map_cons, List.take_succ_cons]
    · rw [show parse_loop (t :: rest) count = [] from by
          rw [parse_loop, if_neg h]]
      rw [show 1024 - count = 0 from by omega]
      simp

theorem strtokAux_token_step (rest : List Char) :
    strtokAux [] ('1' :: ',' :: rest) = ['1'] :: strtokAux [] rest := by
  simp [strtokAux]

/-- The string "1,1,...,1," (n times) followed by "1" tokenizes to
n + 1 tokens. -/
theorem strtok_commas_ones : ∀ n : Nat,
    strtok_commas ((List.replicate n ['1', ',']).flatten ++ ['1']) =
      List.replicate (n + 1) ['1'] := by
  intro n
  induction n with
  | zero => rfl
  | succ n ih =>
    have hflat : (List.replicate (n + 1) ['1', ',']).flatten ++ ['1'] =
        '1' :: ',' :: ((List.replicate n ['1', ',']).flatten ++ ['1']) := by
      rw [List.replicate_succ, List.flatten_cons]
      simp
    rw [hflat]
    show strtokAux [] _ = _
    rw [strtokAux_token_step]
    have ih' : strtokAux [] ((List.replicate n ['1', ',']).flatten ++ ['1']) =
        List.replicate (n + 1) ['1'] := ih
    rw [ih']
    rfl

/-- C10 counterexample: an input of 1025 comma-separated tokens
("1,1,...,1", 2049 characters; any input with more than 1024 tokens —
the only inputs where the 1024 cutoff could engage — is at least 2049
characters long).  The claim asserts the bounded parse from any input
string, but on this input the function's first statement,
`strcpy(temp, str)` into `char temp[1024]`, overflows the buffer
before tokenization: the behavior is undefined and the function does
not deliver the claimed bounded result. -/
theorem parse_frames_overflow :
    parse_frames_string ((List.replicate 1024 ['1', ',']).flatten ++ ['1']) =
        none ∧
      1024 < (strtok_commas
        ((List.replicate 1024 ['1', ',']).flatten ++ ['1'])).length := by
  have hlen : ((List.replicate 1024 ['1', ',']).flatten ++ ['1']).length =
      2049 := by
    rw [List.length_append, List.length_flatten, List.map_replicate,
      List.sum_replicate]
    norm_num
  constructor
  · simp only [parse_frames_string]
    rw [if_neg (by rw [hlen]; omega)]
  · rw [strtok_commas_ones 1024, List.length_replicate]
    omega

/-- C10 (amended): for every input string that fits the function's
`char temp[1024]` buffer (fewer than 1024 characters; longer inputs
overflow it in the initial `strcpy` — undefined behavior),
`parse_frames_string` parses at most 1024 comma-separated frame
indices: the frames written are exactly the `atoi` values of the
first 1024 `strtok` tokens (only positions 0..count-1 ≤ 1023 of the
output array are written, tokens past the 1024th would be silently
ignored), the final count is the number written (≤ 1024), and the
return value is nonzero iff at least one token was parsed. -/
theorem parse_frames_bounded (s : List Char) (h : s.length < 1024) :
    ∃ r : List Int × Nat × Bool,
      parse_frames_string s = some r ∧
        r.1 = ((strtok_commas s).map atoi).take 1024 ∧
        r.1.length ≤ 1024 ∧
        r.2.1 = r.1.length ∧
        r.2.1 ≤ 1024 ∧
        (r.2.2 = true ↔ strtok_commas s ≠ []) := by
  have hfr : parse_loop (strtok_commas s) 0 =
      ((strtok_commas s).map atoi).take 1024 := by
    rw [parse_loop_take]
  have hlen : (parse_loop (strtok_commas s) 0).length ≤ 1024 := by
    rw [hfr]
    simp
  refine ⟨(parse_loop (strtok_commas s) 0,
           (parse_loop (strtok_commas s) 0).length,
           decide (0 < (parse_loop (strtok_commas s) 0).length)),
          by simp only [parse_frames_string, if_pos h],
          hfr, hlen, rfl, hlen, ?_⟩
  rw [decide_eq_true_iff]
  have hmin : (parse_loop (strtok_commas s) 0).length =
      min 1024 (strtok_commas s).length := by
    rw [hfr]
    simp [List.length_take]
  rw [hmin]
  constructor
  · intro h0 hnil
    rw [hnil] at h0
    simp at h0
  · intro hne
    have : (strtok_commas s).length ≠ 0 :=
      fun hz => hne (List.eq_nil_of_length_eq_zero hz)
    omega

theorem parse_frames_bounded_witness :
    (['1', ',', '2', '0', ',', '3'] : List Char).length < 1024 ∧
      ∃ r : List Int × Nat × Bool,
        parse_frames_string ['1', ',', '2', '0', ',', '3'] = some r ∧
          r.1 = ((strtok_commas ['1', ',', '2', '0', ',', '3']).map atoi).take
            1024 ∧
          r.1.length ≤ 1024 ∧
          r.2.1 = r.1.length ∧
          r.2.1 ≤ 1024 ∧
          (r.2.2 = true ↔ strtok_commas ['1', ',', '2', '0', ',', '3'] ≠ []) :=
  ⟨by decide,
   parse_frames_bounded ['1', ',', '2', '0', ',', '3'] (by decide)⟩
